import Mathlib

/-!
# Trivium keystream generator (`MMVUD/project2/trivium.go`)

A shallow embedding of the Go implementation of the Trivium stream cipher and
a verification of its bit addressing, clock update, byte packing and key/IV
loading.

Go's `uint64` values are natural numbers below `2 ^ 64`; every operation that
can leave that range in Go (left shift, subtraction, bitwise complement) is
truncated explicitly.  A Go `panic` is an `Except.error`.
-/

namespace MMVUD

/-! ## Machine arithmetic -/

/-- Truncation to the range of Go's `uint64`. -/
def u64 (x : Nat) : Nat := x % 2 ^ 64

/-- Truncation to the range of Go's `uint8` (`byte`). -/
def u8 (x : Nat) : Nat := x % 2 ^ 8

/-- Go's `a - b` on `uint64`: subtraction modulo `2 ^ 64`. -/
def sub64 (a b : Nat) : Nat := (a + 2 ^ 64 - b) % 2 ^ 64

/-- Go's `a << s` on `uint64`. -/
def shl64 (a s : Nat) : Nat := u64 (a <<< s)

/-- Go's `a << s` on `uint8`. -/
def shl8 (a s : Nat) : Nat := u8 (a <<< s)

/-- Go's `a &^ b` (AND NOT, bit clear) on `uint64`. -/
def andNot64 (a b : Nat) : Nat := a &&& (2 ^ 64 - 1 - b)

/-- The constant `wordSize uint64 = 1 << 6`. -/
def wordSize : Nat := shl64 1 6

/-- The constant `mask uint64 = (1 << 6) - 1`. -/
def mask : Nat := sub64 (shl64 1 6) 1

/-! ## The register -/

/-- The ways the Go code can abort. -/
inductive Panic where
  /-- Raised by `panic("invalid access trivium index")`. -/
  | invalidAccess : Panic
  /-- Raised by `panic(fmt.Sprintf("index > 4. %d - %d", i, index))`. -/
  | indexTooLarge (i index : Nat) : Panic
  /-- Raised by the Go runtime when an array of five words is indexed at `index ≥ 5`. -/
  | outOfRange (index : Nat) : Panic
  deriving DecidableEq

/-- The Go struct `Trivium`, whose only field is `state [5]uint64`; the five
words `state[0]`..`state[4]` are the five fields. -/
structure Trivium where
  state0 : Nat
  state1 : Nat
  state2 : Nat
  state3 : Nat
  state4 : Nat
  deriving DecidableEq

/-- Every word of the array is a `uint64`. -/
def Trivium.WF (t : Trivium) : Prop :=
  t.state0 < 2 ^ 64 ∧ t.state1 < 2 ^ 64 ∧ t.state2 < 2 ^ 64 ∧ t.state3 < 2 ^ 64 ∧
    t.state4 < 2 ^ 64

instance (t : Trivium) : Decidable t.WF := by
  unfold Trivium.WF; infer_instance

/-- Reading `t.state[k]` at an index computed at run time. -/
def Trivium.get (t : Trivium) (k : Nat) : Except Panic Nat :=
  match k with
  | 0 => .ok t.state0
  | 1 => .ok t.state1
  | 2 => .ok t.state2
  | 3 => .ok t.state3
  | 4 => .ok t.state4
  | _ => .error (.outOfRange k)

/-- The assignment `t.state[k] = v` at an index computed at run time. -/
def Trivium.set (t : Trivium) (k : Nat) (v : Nat) : Except Panic Trivium :=
  match k with
  | 0 => .ok { t with state0 := v }
  | 1 => .ok { t with state1 := v }
  | 2 => .ok { t with state2 := v }
  | 3 => .ok { t with state3 := v }
  | 4 => .ok { t with state4 := v }
  | _ => .error (.outOfRange k)

/-- `func (t Trivium) ArrayIdxContainsState(i uint64) uint64`.  The test
`i < 0` is kept as written; on an unsigned `i` it never holds. -/
def Trivium.ArrayIdxContainsState (_t : Trivium) (i : Nat) : Except Panic Nat :=
  if i < 0 ∨ i > 288 then
    .error .invalidAccess
  else
    let index : Nat := sub64 i 1 >>> 6
    if index > 5 then
      .error (.indexTooLarge i index)
    else
      .ok index

/-- `func (t Trivium) State(i uint64) uint64`.  The shift amount is
`mask - ((i-1) & mask)` (in Go `&` binds tighter than `-`). -/
def Trivium.State (t : Trivium) (i : Nat) : Except Panic Nat := do
  let shift : Nat := u64 (sub64 mask (u64 (sub64 i 1) &&& mask))
  let res : Nat := 0
  let idx ← t.ArrayIdxContainsState i
  let w ← t.get idx
  let res := res ||| (w >>> shift)
  return res

/-- `func (t *Trivium) NextBit() uint64`: the output bit together with the
register as the call leaves it. -/
def Trivium.NextBit (t : Trivium) : Except Panic (Nat × Trivium) := do
  let bitmask : Nat := sub64 (shl64 1 1) 1
  let t1 := (← t.State 66) ^^^ (← t.State 93)
  let t2 := (← t.State 162) ^^^ (← t.State 177)
  let t3 := (← t.State 243) ^^^ (← t.State 288)
  let z := (t1 ^^^ t2 ^^^ t3) &&& bitmask
  let t1 := t1 ^^^ (((← t.State 91) &&& (← t.State 92)) ^^^ (← t.State 171))
  let t1 := t1 &&& bitmask
  let t2 := t2 ^^^ (((← t.State 175) &&& (← t.State 176)) ^^^ (← t.State 264))
  let t2 := t2 &&& bitmask
  let t3 := t3 ^^^ (((← t.State 286) &&& (← t.State 287)) ^^^ (← t.State 69))
  let t3 := t3 &&& bitmask
  let t := { t with state4 := (t.state4 >>> 1) ||| shl64 t.state3 (sub64 wordSize 1) }
  let t := { t with state3 := (t.state3 >>> 1) ||| shl64 t.state2 (sub64 wordSize 1) }
  let t := { t with state2 := (t.state2 >>> 1) ||| shl64 t.state1 (sub64 wordSize 1) }
  let t := { t with state1 := (t.state1 >>> 1) ||| shl64 t.state0 (sub64 wordSize 1) }
  let t := { t with state0 := (t.state0 >>> 1) ||| shl64 t3 (sub64 wordSize 1) }
  let n94 : Nat := 93
  let nidx94 := n94 >>> 6
  let nshift94 := sub64 mask (n94 &&& mask)
  let t ← t.set nidx94 (andNot64 (← t.get nidx94) (shl64 bitmask nshift94))
  let t ← t.set nidx94 ((← t.get nidx94) ||| shl64 t1 nshift94)
  let n178 : Nat := 177
  let nidx178 := n178 >>> 6
  let nshift178 := sub64 mask (n178 &&& mask)
  let t ← t.set nidx178 (andNot64 (← t.get nidx178) (shl64 bitmask nshift178))
  let t ← t.set nidx178 ((← t.get nidx178) ||| shl64 t2 nshift178)
  return (z, t)

/-- `func (t *Trivium) NextByte() byte`: the loop `for i := 0; i < 8; i++`
runs over `List.range 8`, carrying `next` and the register. -/
def Trivium.NextByte (t : Trivium) : Except Panic (Nat × Trivium) := do
  let next : Nat := 0
  let (next, t) ← (List.range 8).foldlM
    (fun (acc : Nat × Trivium) (i : Nat) => do
      let (nextBit, t) ← acc.2.NextBit
      return (acc.1 ||| shl8 (u8 nextBit) i, t))
    (next, t)
  return (u8 next, t)

/-- A 10-byte array `[10]byte`. -/
abbrev Bytes10 : Type := Fin 10 → Nat

/-- Every element of the array is a `byte`. -/
def Bytes10.WF (b : Bytes10) : Prop := ∀ k : Fin 10, b k < 2 ^ 8

/-- The first part of `InitTrivium`: the local `state [5]uint64` after the
key, the IV and the three trailing ones are written, wrapped as
`Trivium{state: state}`.  The five elements of the local array are the five
local variables `state0`..`state4`; `state[4]`, zero until then, is assigned
once. -/
def InitTrivium.load (key iv : Bytes10) : Trivium :=
  let state0 : Nat := 0
  let state1 : Nat := 0
  let state2 : Nat := 0
  let state3 : Nat := 0
  let state0 := state0 ||| shl64 (key 0) 56
  let state0 := state0 ||| shl64 (key 1) 48
  let state0 := state0 ||| shl64 (key 2) 40
  let state0 := state0 ||| shl64 (key 3) 32
  let state0 := state0 ||| shl64 (key 4) 24
  let state0 := state0 ||| shl64 (key 5) 16
  let state0 := state0 ||| shl64 (key 6) 8
  let state0 := state0 ||| key 7
  let state1 := state1 ||| shl64 (key 8) 56
  let state1 := state1 ||| shl64 (key 9) 48
  let state1 := state1 ||| shl64 (iv 0) 27
  let state1 := state1 ||| shl64 (iv 1) 19
  let state1 := state1 ||| shl64 (iv 2) 11
  let state1 := state1 ||| shl64 (iv 3) 3
  let state1 := state1 ||| (iv 4 >>> 5)
  let state2 := state2 ||| shl64 (iv 4) 59
  let state2 := state2 ||| shl64 (iv 5) 51
  let state2 := state2 ||| shl64 (iv 6) 43
  let state2 := state2 ||| shl64 (iv 7) 35
  let state2 := state2 ||| shl64 (iv 8) 27
  let state2 := state2 ||| shl64 (iv 9) 19
  let state4 := shl64 7 32
  { state0 := state0, state1 := state1, state2 := state2, state3 := state3, state4 := state4 }

/-- The warm-up loop `for i := 0; i < 4*288; i++ { trivium.NextBit() }`,
with the number of iterations as a parameter; each output bit is dropped. -/
def InitTrivium.warmUp (n : Nat) (t : Trivium) : Except Panic Trivium :=
  (List.range n).foldlM
    (fun (t : Trivium) (_i : Nat) => do
      let (_, t) ← t.NextBit
      return t)
    t

/-- `func InitTrivium(key, iv [10]byte) *Trivium`. -/
def InitTrivium (key iv : Bytes10) : Except Panic Trivium :=
  InitTrivium.warmUp (4 * 288) (InitTrivium.load key iv)

/-! ## Logical cells -/

/-- Word `k` of the array `state` (`0` beyond the fifth word). -/
def Trivium.word (t : Trivium) (k : Nat) : Nat :=
  match k with
  | 0 => t.state0
  | 1 => t.state1
  | 2 => t.state2
  | 3 => t.state3
  | 4 => t.state4
  | _ => 0

/-- Logical cell `i` of the register, `s_i` of the cipher's description:
bit `63 - ((i - 1) mod 64)` of word `⌊(i - 1) / 64⌋`. -/
def Trivium.cell (t : Trivium) (i : Nat) : Bool :=
  (t.word ((i - 1) / 64)).testBit (63 - (i - 1) % 64)

/-- The feedback bit `t1` as `NextBit` holds it after `t1 &= bitmask`. -/
def Trivium.fb1 (t : Trivium) : Nat :=
  ((t.state1 >>> 62) ^^^ (t.state1 >>> 35) ^^^
    (((t.state1 >>> 37) &&& (t.state1 >>> 36)) ^^^ (t.state2 >>> 21))) &&& 1

/-- The feedback bit `t2` as `NextBit` holds it after `t2 &= bitmask`. -/
def Trivium.fb2 (t : Trivium) : Nat :=
  ((t.state2 >>> 30) ^^^ (t.state2 >>> 15) ^^^
    (((t.state2 >>> 17) &&& (t.state2 >>> 16)) ^^^ (t.state4 >>> 56))) &&& 1

/-- The feedback bit `t3` as `NextBit` holds it after `t3 &= bitmask`. -/
def Trivium.fb3 (t : Trivium) : Nat :=
  ((t.state3 >>> 13) ^^^ (t.state4 >>> 32) ^^^
    (((t.state4 >>> 34) &&& (t.state4 >>> 33)) ^^^ (t.state1 >>> 59))) &&& 1

/-- The bit `z` that `NextBit` returns. -/
def Trivium.outBit (t : Trivium) : Nat :=
  ((t.state1 >>> 62) ^^^ (t.state1 >>> 35) ^^^ ((t.state2 >>> 30) ^^^ (t.state2 >>> 15)) ^^^
    ((t.state3 >>> 13) ^^^ (t.state4 >>> 32))) &&& 1

/-- The register `NextBit` leaves. -/
def Trivium.nextState (t : Trivium) : Trivium where
  state0 := (t.state0 >>> 1) ||| u64 (t.fb3 <<< 63)
  state1 := andNot64 ((t.state1 >>> 1) ||| u64 (t.state0 <<< 63)) (2 ^ 34) ||| u64 (t.fb1 <<< 34)
  state2 := andNot64 ((t.state2 >>> 1) ||| u64 (t.state1 <<< 63)) (2 ^ 14) ||| u64 (t.fb2 <<< 14)
  state3 := (t.state3 >>> 1) ||| u64 (t.state2 <<< 63)
  state4 := (t.state4 >>> 1) ||| u64 (t.state3 <<< 63)

/-! ## Sequences of clocks -/

/-- The register after `n` successive `NextBit` calls. -/
def Trivium.clocks : Nat → Trivium → Except Panic Trivium
  | 0, t => .ok t
  | n + 1, t => do
    let (_, t) ← t.NextBit
    Trivium.clocks n t

/-- The output of clock number `n` (counted from `1`): the bit returned by the
`n`-th of `n` successive `NextBit` calls. -/
def Trivium.clockOut (t : Trivium) (n : Nat) : Except Panic Nat := do
  let t ← Trivium.clocks (n - 1) t
  let (z, _) ← t.NextBit
  return z

/-! ## Byte production -/

/-- One iteration of the loop of `NextByte`, given that `NextBit` returns. -/
def byteStep (acc : Nat × Trivium) (i : Nat) : Nat × Trivium :=
  (acc.1 ||| shl8 (u8 acc.2.outBit) i, acc.2.nextState)

/-- The first `n` bytes `NextByte` yields, and the register after them. -/
def Trivium.nextBytes : Nat → Trivium → Except Panic (List Nat × Trivium)
  | 0, t => .ok ([], t)
  | n + 1, t => do
    let (b, t) ← t.NextByte
    let (bs, t) ← Trivium.nextBytes n t
    return (b :: bs, t)

/-- The first `n` keystream bytes a caller gets for a key and an IV:
`InitTrivium` followed by `n` calls of `NextByte`. -/
def keystream (key iv : Bytes10) (n : Nat) : Except Panic (List Nat) := do
  let G ← InitTrivium key iv
  let (bs, _) ← G.nextBytes n
  return bs

deriving instance DecidableEq for Except

/-! ## Sample inputs -/

/-- A register whose five words are arbitrary `uint64` values. -/
def sampleState : Trivium :=
  ⟨0xFEDCBA9876543210, 0x0123456789ABCDEF, 0x0F1E2D3C4B5A6978, 0x8796A5B4C3D2E1F0,
    0xDEADBEEFCAFEF00D⟩

/-- A key with ten different bytes. -/
def sampleKey : Bytes10 := fun k => 17 * k.val + 3

/-- An IV with ten different bytes. -/
def sampleIV : Bytes10 := fun k => 255 - 11 * k.val

/-- The all-zero key and the all-zero IV. -/
def zeroBytes : Bytes10 := fun _ => 0

/-! ## Further definitions -/

/-- The right-shift amount `State` computes for index `i`:
`uint64(mask - uint64(i-1)&mask)`. -/
def stateShift (i : Nat) : Nat := u64 (sub64 mask (u64 (sub64 i 1) &&& mask))

/-- The all-zero key with the most-significant bit of byte `0` flipped:
`key[0] = 0x80`, logical cell `1`. -/
def flippedKey : Bytes10 := fun k => if k = 0 then 0x80 else 0

/-- The fifteen indices `NextBit` passes to `State`, in the order of the calls. -/
def tapIndices : List Nat :=
  [66, 93, 162, 177, 243, 288, 91, 92, 171, 175, 176, 264, 286, 287, 69]

/-- Two registers agree on the logical cells `1..288`. -/
def Trivium.logicalEq (S T : Trivium) : Prop :=
  ∀ i, 1 ≤ i → i ≤ 288 → S.cell i = T.cell i

/-- A register that differs from `sampleState` in the 32 spare bits of
`state[4]` only. -/
def sampleState2 : Trivium :=
  ⟨0xFEDCBA9876543210, 0x0123456789ABCDEF, 0x0F1E2D3C4B5A6978, 0x8796A5B4C3D2E1F0,
    0xDEADBEEF00000001⟩

/-! ## Auxiliary facts -/

theorem mask_eq : mask = 63 := by decide

theorem wordSize_eq : wordSize = 64 := by decide

theorem sub64_of_le {a b : Nat} (hb : b ≤ a) (ha : a < 2 ^ 64) : sub64 a b = a - b := by
  unfold sub64
  have : a + 2 ^ 64 - b = (a - b) + 2 ^ 64 := by omega
  rw [this, Nat.add_mod_right, Nat.mod_eq_of_lt (by omega)]

theorem and_mask (x : Nat) : x &&& 63 = x % 64 :=
  Nat.and_pow_two_sub_one_eq_mod x 6

theorem get_eq_word (t : Trivium) {k : Nat} (hk : k ≤ 4) : t.get k = .ok (t.word k) := by
  interval_cases k <;> rfl

/-- Inside the index range, `State` returns the addressed word shifted right so
that the addressed bit is the lowest one; nothing is masked off. -/
theorem State_eq (t : Trivium) {i : Nat} (h1 : 1 ≤ i) (h2 : i ≤ 288) :
    t.State i = .ok (t.word ((i - 1) / 64) >>> (63 - (i - 1) % 64)) := by
  have hs : sub64 i 1 = i - 1 := sub64_of_le h1 (by omega)
  have hlt : i - 1 < 2 ^ 64 := by omega
  have hm : (i - 1) % 64 ≤ 63 := by omega
  have hidx : (i - 1) / 64 ≤ 4 := by omega
  simp only [Trivium.State, Trivium.ArrayIdxContainsState, hs, mask_eq, u64,
    Nat.mod_eq_of_lt hlt, and_mask, Nat.shiftRight_eq_div_pow]
  rw [sub64_of_le hm (by norm_num)]
  have h63 : (63 - (i - 1) % 64) % 18446744073709551616 = 63 - (i - 1) % 64 :=
    Nat.mod_eq_of_lt (by omega)
  have hno : ¬ 288 < i := by omega
  have hno5 : ¬ 5 < (i - 1) / 64 := by omega
  have hg := get_eq_word t hidx
  simp [h63, hno, hno5, hg, bind, Except.bind, pure, Except.pure]

theorem bitmask_eq : sub64 (shl64 1 1) 1 = 1 := by decide

theorem wordSize_sub : sub64 wordSize 1 = 63 := by decide

theorem nshift94_eq : sub64 mask (93 &&& mask) = 34 := by decide

theorem nshift178_eq : sub64 mask (177 &&& mask) = 14 := by decide

theorem nidx94_eq : 93 >>> 6 = 1 := by decide

theorem nidx178_eq : 177 >>> 6 = 2 := by decide

theorem shl64_one_34 : shl64 1 34 = 2 ^ 34 := by decide

theorem shl64_one_14 : shl64 1 14 = 2 ^ 14 := by decide

/-- `NextBit` never aborts: on every register it returns `outBit` and leaves
`nextState`. -/
theorem NextBit_eq (t : Trivium) : t.NextBit = .ok (t.outBit, t.nextState) := by
  have e66 : t.State 66 = .ok (t.state1 >>> 62) := State_eq t (i := 66) (by decide) (by decide)
  have e93 : t.State 93 = .ok (t.state1 >>> 35) := State_eq t (i := 93) (by decide) (by decide)
  have e162 : t.State 162 = .ok (t.state2 >>> 30) := State_eq t (i := 162) (by decide) (by decide)
  have e177 : t.State 177 = .ok (t.state2 >>> 15) := State_eq t (i := 177) (by decide) (by decide)
  have e243 : t.State 243 = .ok (t.state3 >>> 13) := State_eq t (i := 243) (by decide) (by decide)
  have e288 : t.State 288 = .ok (t.state4 >>> 32) := State_eq t (i := 288) (by decide) (by decide)
  have e91 : t.State 91 = .ok (t.state1 >>> 37) := State_eq t (i := 91) (by decide) (by decide)
  have e92 : t.State 92 = .ok (t.state1 >>> 36) := State_eq t (i := 92) (by decide) (by decide)
  have e171 : t.State 171 = .ok (t.state2 >>> 21) := State_eq t (i := 171) (by decide) (by decide)
  have e175 : t.State 175 = .ok (t.state2 >>> 17) := State_eq t (i := 175) (by decide) (by decide)
  have e176 : t.State 176 = .ok (t.state2 >>> 16) := State_eq t (i := 176) (by decide) (by decide)
  have e264 : t.State 264 = .ok (t.state4 >>> 56) := State_eq t (i := 264) (by decide) (by decide)
  have e286 : t.State 286 = .ok (t.state4 >>> 34) := State_eq t (i := 286) (by decide) (by decide)
  have e287 : t.State 287 = .ok (t.state4 >>> 33) := State_eq t (i := 287) (by decide) (by decide)
  have e69 : t.State 69 = .ok (t.state1 >>> 59) := State_eq t (i := 69) (by decide) (by decide)
  unfold Trivium.NextBit
  rw [e66, e93, e162, e177, e243, e288, e91, e92, e171, e175, e176, e264, e286, e287, e69]
  simp only [bitmask_eq, wordSize_sub, nshift94_eq, nshift178_eq, nidx94_eq, nidx178_eq,
    shl64_one_34, shl64_one_14]
  rfl

/-! ## Bit-level facts about the closed forms -/

theorem and_one_eq_toNat (x : Nat) : x &&& 1 = (x.testBit 0).toNat := by
  rw [Nat.and_one_is_mod, Nat.toNat_testBit, pow_zero, Nat.div_one]

theorem toNat_testBit_zero (b : Bool) : b.toNat.testBit 0 = b := by
  cases b <;> rfl

theorem cell_eq_tap (t : Trivium) (i : Nat) :
    t.cell i = (t.word ((i - 1) / 64) >>> (63 - (i - 1) % 64)).testBit 0 := by
  simp [Trivium.cell, Nat.testBit_shiftRight]

/-- The value `t1` that `NextBit` inserts, in terms of logical cells. -/
theorem fb1_eq (t : Trivium) :
    t.fb1 = (xor (xor (xor (t.cell 66) (t.cell 93)) (t.cell 91 && t.cell 92)) (t.cell 171)).toNat := by
  simp only [Trivium.fb1, and_one_eq_toNat, Trivium.cell, Trivium.word, Nat.testBit_xor,
    Nat.testBit_and, Nat.testBit_shiftRight]
  norm_num

/-- The value `t2` that `NextBit` inserts, in terms of logical cells. -/
theorem fb2_eq (t : Trivium) :
    t.fb2 = (xor (xor (xor (t.cell 162) (t.cell 177)) (t.cell 175 && t.cell 176)) (t.cell 264)).toNat := by
  simp only [Trivium.fb2, and_one_eq_toNat, Trivium.cell, Trivium.word, Nat.testBit_xor,
    Nat.testBit_and, Nat.testBit_shiftRight]
  norm_num

/-- The value `t3` that `NextBit` inserts, in terms of logical cells. -/
theorem fb3_eq (t : Trivium) :
    t.fb3 = (xor (xor (xor (t.cell 243) (t.cell 288)) (t.cell 286 && t.cell 287)) (t.cell 69)).toNat := by
  simp only [Trivium.fb3, and_one_eq_toNat, Trivium.cell, Trivium.word, Nat.testBit_xor,
    Nat.testBit_and, Nat.testBit_shiftRight]
  norm_num

/-- The bit `NextBit` returns, in terms of logical cells. -/
theorem outBit_eq (t : Trivium) :
    t.outBit = (xor (xor (xor (xor (xor (t.cell 66) (t.cell 93)) (t.cell 162)) (t.cell 177))
      (t.cell 243)) (t.cell 288)).toNat := by
  simp only [Trivium.outBit, and_one_eq_toNat, Trivium.cell, Trivium.word, Nat.testBit_xor,
    Nat.testBit_and, Nat.testBit_shiftRight]
  norm_num

/-- One word of the 320-bit right shift: bit 63 comes from the lowest bit of the
word below, every other bit from the next higher bit of the same word. -/
theorem shiftIn_testBit {hi : Nat} (lo : Nat) (hhi : hi < 2 ^ 64) {b : Nat} (hb : b < 64) :
    ((hi >>> 1) ||| u64 (lo <<< 63)).testBit b =
      if b = 63 then lo.testBit 0 else hi.testBit (b + 1) := by
  simp only [u64, Nat.testBit_or, Nat.testBit_shiftRight, Nat.testBit_mod_two_pow,
    Nat.testBit_shiftLeft]
  by_cases h : b = 63
  · subst h
    simp [Nat.testBit_lt_two_pow hhi]
  · have h1 : ¬ b ≥ 63 := by omega
    simp [h, h1, Nat.add_comm]

/-- Clearing bit `p` and writing the one-bit value `v` there. -/
theorem insert_testBit (x : Nat) {v : Nat} (hv : v ≤ 1) {p : Nat} (hp : p < 64) {b : Nat}
    (hb : b < 64) :
    (andNot64 x (2 ^ p) ||| u64 (v <<< p)).testBit b =
      if b = p then v.testBit 0 else x.testBit b := by
  have hlt : 2 ^ p < 2 ^ 64 := Nat.pow_lt_pow_right (by decide) hp
  have hc : 2 ^ 64 - 1 - 2 ^ p = 2 ^ 64 - (2 ^ p + 1) := by omega
  simp only [andNot64, u64, hc, Nat.testBit_or, Nat.testBit_and, Nat.testBit_shiftLeft,
    Nat.testBit_mod_two_pow, Nat.testBit_two_pow_sub_succ hlt, Nat.testBit_two_pow]
  by_cases h : b = p
  · subst h
    simp [hb]
  · have hne : ¬ p = b := fun e => h e.symm
    have hv0 : v.testBit (b - p) = false ∨ ¬ b ≥ p := by
      by_cases hge : b ≥ p
      · left
        have : 0 < b - p := by omega
        apply Nat.testBit_lt_two_pow
        calc v < 2 ^ 1 := by omega
          _ ≤ 2 ^ (b - p) := Nat.pow_le_pow_right (by decide) this
      · right; exact hge
    rcases hv0 with h0 | h0 <;> simp [h, hne, hb, h0]

theorem fb1_le (t : Trivium) : t.fb1 ≤ 1 := by
  rw [fb1_eq]; exact Bool.toNat_le _

theorem fb2_le (t : Trivium) : t.fb2 ≤ 1 := by
  rw [fb2_eq]; exact Bool.toNat_le _

theorem fb3_le (t : Trivium) : t.fb3 ≤ 1 := by
  rw [fb3_eq]; exact Bool.toNat_le _

theorem shiftIn_lt (hi lo : Nat) (hhi : hi < 2 ^ 64) : (hi >>> 1) ||| u64 (lo <<< 63) < 2 ^ 64 := by
  apply Nat.or_lt_two_pow
  · rw [Nat.shiftRight_eq_div_pow]; exact lt_of_le_of_lt (Nat.div_le_self _ _) hhi
  · exact Nat.mod_lt _ (by positivity)

/-- Bit `b` of a word of the register `NextBit` leaves, for each of its five words. -/
theorem nextState_word_testBit (t : Trivium) (h : t.WF) {b : Nat} (hb : b < 64) :
    (t.nextState.state0.testBit b = if b = 63 then t.fb3.testBit 0 else t.state0.testBit (b + 1)) ∧
    (t.nextState.state1.testBit b = if b = 34 then t.fb1.testBit 0 else
      if b = 63 then t.state0.testBit 0 else t.state1.testBit (b + 1)) ∧
    (t.nextState.state2.testBit b = if b = 14 then t.fb2.testBit 0 else
      if b = 63 then t.state1.testBit 0 else t.state2.testBit (b + 1)) ∧
    (t.nextState.state3.testBit b =
      if b = 63 then t.state2.testBit 0 else t.state3.testBit (b + 1)) ∧
    (t.nextState.state4.testBit b =
      if b = 63 then t.state3.testBit 0 else t.state4.testBit (b + 1)) := by
  obtain ⟨h0, h1, h2, h3, h4⟩ := h
  refine ⟨?_, ?_, ?_, ?_, ?_⟩
  · exact shiftIn_testBit _ h0 hb
  · show (andNot64 _ (2 ^ 34) ||| u64 (t.fb1 <<< 34)).testBit b = _
    rw [insert_testBit _ (fb1_le t) (by decide) hb, shiftIn_testBit _ h1 hb]
  · show (andNot64 _ (2 ^ 14) ||| u64 (t.fb2 <<< 14)).testBit b = _
    rw [insert_testBit _ (fb2_le t) (by decide) hb, shiftIn_testBit _ h2 hb]
  · exact shiftIn_testBit _ h3 hb
  · exact shiftIn_testBit _ h4 hb

/-- Every logical cell other than the three insertion points takes the value of
its predecessor. -/
theorem nextState_cell_shift (t : Trivium) (h : t.WF) {i : Nat} (h2 : 2 ≤ i) (h288 : i ≤ 288)
    (h94 : i ≠ 94) (h178 : i ≠ 178) : t.nextState.cell i = t.cell (i - 1) := by
  have hb : 63 - (i - 1) % 64 < 64 := by omega
  obtain ⟨w0, w1, w2, w3, w4⟩ := nextState_word_testBit t h hb
  have hk : (i - 1) / 64 = 0 ∨ (i - 1) / 64 = 1 ∨ (i - 1) / 64 = 2 ∨ (i - 1) / 64 = 3 ∨
      (i - 1) / 64 = 4 := by omega
  by_cases hr : (i - 1) % 64 = 0
  · have e1 : 63 - (i - 1) % 64 = 63 := by omega
    have e2 : 63 - (i - 1 - 1) % 64 = 0 := by omega
    rw [e1] at w0 w1 w2 w3 w4
    rcases hk with hk | hk | hk | hk | hk
    · omega
    · have e3 : (i - 1 - 1) / 64 = 0 := by omega
      simp only [Trivium.cell, hk, e1, e2, e3, Trivium.word, w1]; simp
    · have e3 : (i - 1 - 1) / 64 = 1 := by omega
      simp only [Trivium.cell, hk, e1, e2, e3, Trivium.word, w2]; simp
    · have e3 : (i - 1 - 1) / 64 = 2 := by omega
      simp only [Trivium.cell, hk, e1, e2, e3, Trivium.word, w3]; simp
    · have e3 : (i - 1 - 1) / 64 = 3 := by omega
      simp only [Trivium.cell, hk, e1, e2, e3, Trivium.word, w4]; simp
  · have e2 : 63 - (i - 1 - 1) % 64 = 63 - (i - 1) % 64 + 1 := by omega
    have e3 : (i - 1 - 1) / 64 = (i - 1) / 64 := by omega
    have n63 : ¬ 63 - (i - 1) % 64 = 63 := by omega
    rcases hk with hk | hk | hk | hk | hk
    · simp only [Trivium.cell, e2, e3, hk, Trivium.word, w0, if_neg n63]
    · have n34 : ¬ 63 - (i - 1) % 64 = 34 := by omega
      simp only [Trivium.cell, e2, e3, hk, Trivium.word, w1, if_neg n63, if_neg n34]
    · have n14 : ¬ 63 - (i - 1) % 64 = 14 := by omega
      simp only [Trivium.cell, e2, e3, hk, Trivium.word, w2, if_neg n63, if_neg n14]
    · simp only [Trivium.cell, e2, e3, hk, Trivium.word, w3, if_neg n63]
    · simp only [Trivium.cell, e2, e3, hk, Trivium.word, w4, if_neg n63]

/-- The three insertion points hold the feedback bits. -/
theorem nextState_cell_insert (t : Trivium) (h : t.WF) :
    t.nextState.cell 1 = t.fb3.testBit 0 ∧ t.nextState.cell 94 = t.fb1.testBit 0 ∧
      t.nextState.cell 178 = t.fb2.testBit 0 := by
  obtain ⟨w0, -, -, -, -⟩ := nextState_word_testBit t h (b := 63) (by decide)
  obtain ⟨-, w1, -, -, -⟩ := nextState_word_testBit t h (b := 34) (by decide)
  obtain ⟨-, -, w2, -, -⟩ := nextState_word_testBit t h (b := 14) (by decide)
  refine ⟨?_, ?_, ?_⟩
  · simpa [Trivium.cell, Trivium.word] using w0
  · simpa [Trivium.cell, Trivium.word] using w1
  · simpa [Trivium.cell, Trivium.word] using w2

theorem byte_testBit_ge {x : Nat} (hx : x < 2 ^ 8) {j : Nat} (hj : 8 ≤ j) : x.testBit j = false :=
  Nat.testBit_lt_two_pow (lt_of_lt_of_le hx (Nat.pow_le_pow_right (by decide) hj))

theorem shl64_testBit (x s b : Nat) :
    (shl64 x s).testBit b = (decide (b < 64) && (decide (b ≥ s) && x.testBit (b - s))) := by
  simp only [shl64, u64, Nat.testBit_mod_two_pow, Nat.testBit_shiftLeft]

/-! ## The clock update -/

/-- C1: on every register `NextBit` returns, and the value it returns is `0` or
`1` and equals `s66 ⊕ s93 ⊕ s162 ⊕ s177 ⊕ s243 ⊕ s288` of the cells before the
call. -/
theorem NextBit_output (S : Trivium) :
    ∃ z S', S.NextBit = .ok (z, S') ∧ (z = 0 ∨ z = 1) ∧
      z = (xor (xor (xor (xor (xor (S.cell 66) (S.cell 93)) (S.cell 162)) (S.cell 177))
        (S.cell 243)) (S.cell 288)).toNat := by
  refine ⟨S.outBit, S.nextState, NextBit_eq S, ?_, outBit_eq S⟩
  rw [outBit_eq]
  cases xor (xor (xor (xor (xor (S.cell 66) (S.cell 93)) (S.cell 162)) (S.cell 177))
    (S.cell 243)) (S.cell 288)
  · exact Or.inl rfl
  · exact Or.inr rfl

/-- C2: on every register of five `uint64` words `NextBit` returns and leaves
a register `S'` with `s'1 = t3`, `s'94 = t1`, `s'178 = t2` and `s'i = s(i-1)`
for every other `i` in `2..288`, where `t1`, `t2`, `t3` are the feedback
values of the cells before the call. -/
theorem NextBit_register (S : Trivium) (hS : S.WF) :
    ∃ z S', S.NextBit = .ok (z, S') ∧
      S'.cell 1 =
        xor (xor (xor (S.cell 243) (S.cell 288)) (S.cell 286 && S.cell 287)) (S.cell 69) ∧
      (∀ i, 2 ≤ i → i ≤ 93 → S'.cell i = S.cell (i - 1)) ∧
      S'.cell 94 =
        xor (xor (xor (S.cell 66) (S.cell 93)) (S.cell 91 && S.cell 92)) (S.cell 171) ∧
      (∀ i, 95 ≤ i → i ≤ 177 → S'.cell i = S.cell (i - 1)) ∧
      S'.cell 178 =
        xor (xor (xor (S.cell 162) (S.cell 177)) (S.cell 175 && S.cell 176)) (S.cell 264) ∧
      (∀ i, 179 ≤ i → i ≤ 288 → S'.cell i = S.cell (i - 1)) := by
  obtain ⟨c1, c94, c178⟩ := nextState_cell_insert S hS
  refine ⟨S.outBit, S.nextState, NextBit_eq S, ?_, ?_, ?_, ?_, ?_, ?_⟩
  · rw [c1, fb3_eq, toNat_testBit_zero]
  · intro i h1 h2
    exact nextState_cell_shift S hS (by omega) (by omega) (by omega) (by omega)
  · rw [c94, fb1_eq, toNat_testBit_zero]
  · intro i h1 h2
    exact nextState_cell_shift S hS (by omega) (by omega) (by omega) (by omega)
  · rw [c178, fb2_eq, toNat_testBit_zero]
  · intro i h1 h2
    exact nextState_cell_shift S hS (by omega) (by omega) (by omega) (by omega)

/-- The clock update of `NextBit_register` on `sampleState`. -/
theorem NextBit_register_witness :
    sampleState.WF ∧
    ∃ z S', sampleState.NextBit = .ok (z, S') ∧
      S'.cell 1 =
        xor (xor (xor (sampleState.cell 243) (sampleState.cell 288))
          (sampleState.cell 286 && sampleState.cell 287)) (sampleState.cell 69) ∧
      (∀ i, 2 ≤ i → i ≤ 93 → S'.cell i = sampleState.cell (i - 1)) ∧
      S'.cell 94 =
        xor (xor (xor (sampleState.cell 66) (sampleState.cell 93))
          (sampleState.cell 91 && sampleState.cell 92)) (sampleState.cell 171) ∧
      (∀ i, 95 ≤ i → i ≤ 177 → S'.cell i = sampleState.cell (i - 1)) ∧
      S'.cell 178 =
        xor (xor (xor (sampleState.cell 162) (sampleState.cell 177))
          (sampleState.cell 175 && sampleState.cell 176)) (sampleState.cell 264) ∧
      (∀ i, 179 ≤ i → i ≤ 288 → S'.cell i = sampleState.cell (i - 1)) :=
  ⟨by decide, NextBit_register sampleState (by decide)⟩

/-! ## Loading the key and the IV -/

set_option maxHeartbeats 4000000 in
/-- The cells that hold the key in the loaded register. -/
theorem load_cell_key (key iv : Bytes10) (hk : key.WF) (hiv : iv.WF) (k : Fin 10) (j : Nat)
    (hj : j < 8) :
    (InitTrivium.load key iv).cell (8 * k.val + j + 1) = (key k).testBit (7 - j) := by
  have hkb : ∀ (k : Fin 10) (j : Nat), 8 ≤ j → (key k).testBit j = false :=
    fun k j h => byte_testBit_ge (hk k) h
  have hib : ∀ (k : Fin 10) (j : Nat), 8 ≤ j → (iv k).testBit j = false :=
    fun k j h => byte_testBit_ge (hiv k) h
  fin_cases k <;> interval_cases j <;>
    simp [InitTrivium.load, Trivium.cell, Trivium.word, shl64_testBit, Nat.testBit_or,
      Nat.testBit_shiftRight, hkb, hib, -Nat.testBit_zero]

/-- C3: in the register `InitTrivium` builds before the warm-up loop, logical
cell `8k + j + 1` is bit `7 - j` of `key[k]`, for `k` in `0..9` and `j` in
`0..7`. -/
theorem load_key_cells (key iv : Bytes10) (hk : key.WF) (hiv : iv.WF) (k : Fin 10) (j : Nat)
    (hj : j < 8) :
    (InitTrivium.load key iv).cell (8 * k.val + j + 1) = (key k).testBit (7 - j) :=
  load_cell_key key iv hk hiv k j hj

/-- The key loading of `load_key_cells` on `sampleKey`, byte 2, bit 3. -/
theorem load_key_cells_witness :
    sampleKey.WF ∧ sampleIV.WF ∧ 3 < 8 ∧
      (InitTrivium.load sampleKey sampleIV).cell (8 * (2 : Fin 10).val + 3 + 1) =
        (sampleKey 2).testBit (7 - 3) :=
  ⟨by intro k; fin_cases k <;> decide, by intro k; fin_cases k <;> decide, by decide,
    load_key_cells sampleKey sampleIV (by intro k; fin_cases k <;> decide)
      (by intro k; fin_cases k <;> decide) 2 3 (by decide)⟩

set_option maxHeartbeats 4000000 in
/-- The cells that hold the IV in the loaded register. -/
theorem load_cell_iv (key iv : Bytes10) (hk : key.WF) (hiv : iv.WF) (k : Fin 10) (j : Nat)
    (hj : j < 8) :
    (InitTrivium.load key iv).cell (94 + 8 * k.val + j) = (iv k).testBit (7 - j) := by
  have hkb : ∀ (k : Fin 10) (j : Nat), 8 ≤ j → (key k).testBit j = false :=
    fun k j h => byte_testBit_ge (hk k) h
  have hib : ∀ (k : Fin 10) (j : Nat), 8 ≤ j → (iv k).testBit j = false :=
    fun k j h => byte_testBit_ge (hiv k) h
  fin_cases k <;> interval_cases j <;>
    simp [InitTrivium.load, Trivium.cell, Trivium.word, shl64_testBit, Nat.testBit_or,
      Nat.testBit_shiftRight, hkb, hib, -Nat.testBit_zero]

/-- C4: in the register `InitTrivium` builds before the warm-up loop, logical
cell `94 + 8k + j` is bit `7 - j` of `iv[k]`, for `k` in `0..9` and `j` in
`0..7`; the bits of `iv[4]` sit in cells `126..133`, across words 1 and 2. -/
theorem load_iv_cells (key iv : Bytes10) (hk : key.WF) (hiv : iv.WF) (k : Fin 10) (j : Nat)
    (hj : j < 8) :
    (InitTrivium.load key iv).cell (94 + 8 * k.val + j) = (iv k).testBit (7 - j) :=
  load_cell_iv key iv hk hiv k j hj

/-- The IV loading of `load_iv_cells` on `sampleIV`, byte 4, bit 3: the first
cell of word 2. -/
theorem load_iv_cells_witness :
    sampleKey.WF ∧ sampleIV.WF ∧ 3 < 8 ∧
      (InitTrivium.load sampleKey sampleIV).cell (94 + 8 * (4 : Fin 10).val + 3) =
        (sampleIV 4).testBit (7 - 3) :=
  ⟨by intro k; fin_cases k <;> decide, by intro k; fin_cases k <;> decide, by decide,
    load_iv_cells sampleKey sampleIV (by intro k; fin_cases k <;> decide)
      (by intro k; fin_cases k <;> decide) 4 3 (by decide)⟩

theorem testBit_false_of_lt {x n : Nat} (hx : x < 2 ^ n) {b : Nat} (hb : n ≤ b) :
    x.testBit b = false :=
  Nat.testBit_lt_two_pow (lt_of_lt_of_le hx (Nat.pow_le_pow_right (by decide) hb))

set_option maxHeartbeats 4000000 in
/-- C5: in the register `InitTrivium` builds before the warm-up loop, logical
cells `286`, `287`, `288` are `1` and every logical cell in `81..93` and in
`174..285` is `0`, whatever the key and IV bytes are. -/
theorem load_fixed_cells (key iv : Bytes10) (hk : key.WF) (hiv : iv.WF) :
    (InitTrivium.load key iv).cell 286 = true ∧ (InitTrivium.load key iv).cell 287 = true ∧
    (InitTrivium.load key iv).cell 288 = true ∧
    (∀ i, 81 ≤ i → i ≤ 93 → (InitTrivium.load key iv).cell i = false) ∧
    (∀ i, 174 ≤ i → i ≤ 285 → (InitTrivium.load key iv).cell i = false) := by
  have hkb : ∀ (k : Fin 10) (j : Nat), 8 ≤ j → (key k).testBit j = false :=
    fun k j h => byte_testBit_ge (hk k) h
  have hib : ∀ (k : Fin 10) (j : Nat), 8 ≤ j → (iv k).testBit j = false :=
    fun k j h => byte_testBit_ge (hiv k) h
  have h4 : (InitTrivium.load key iv).state4 = 30064771072 := by
    show shl64 7 32 = 30064771072
    decide
  have h3 : (InitTrivium.load key iv).state3 = 0 := rfl
  refine ⟨?_, ?_, ?_, ?_, ?_⟩
  · simp only [Trivium.cell, Trivium.word, h4]; decide
  · simp only [Trivium.cell, Trivium.word, h4]; decide
  · simp only [Trivium.cell, Trivium.word, h4]; decide
  · intro i h1 h2
    interval_cases i <;>
      simp [InitTrivium.load, Trivium.cell, Trivium.word, shl64_testBit, Nat.testBit_or,
        Nat.testBit_shiftRight, hkb, hib, -Nat.testBit_zero]
  · intro i h1 h2
    by_cases ha : i ≤ 192
    · interval_cases i <;>
        simp [InitTrivium.load, Trivium.cell, Trivium.word, shl64_testBit, Nat.testBit_or,
          Nat.testBit_shiftRight, hkb, hib, -Nat.testBit_zero]
    · by_cases hb : i ≤ 256
      · have e : (i - 1) / 64 = 3 := by omega
        simp only [Trivium.cell, e, Trivium.word, h3, Nat.zero_testBit]
      · have e : (i - 1) / 64 = 4 := by omega
        simp only [Trivium.cell, e, Trivium.word, h4]
        exact testBit_false_of_lt (n := 35) (by decide) (by omega)

/-- The fixed cells of `load_fixed_cells` on `sampleKey` and `sampleIV`. -/
theorem load_fixed_cells_witness :
    sampleKey.WF ∧ sampleIV.WF ∧
    (InitTrivium.load sampleKey sampleIV).cell 286 = true ∧
    (InitTrivium.load sampleKey sampleIV).cell 287 = true ∧
    (InitTrivium.load sampleKey sampleIV).cell 288 = true ∧
    (∀ i, 81 ≤ i → i ≤ 93 → (InitTrivium.load sampleKey sampleIV).cell i = false) ∧
    (∀ i, 174 ≤ i → i ≤ 285 → (InitTrivium.load sampleKey sampleIV).cell i = false) :=
  ⟨by intro k; fin_cases k <;> decide, by intro k; fin_cases k <;> decide,
    load_fixed_cells sampleKey sampleIV (by intro k; fin_cases k <;> decide)
      (by intro k; fin_cases k <;> decide)⟩

/-! ## Warm-up -/

theorem clocks_eq (n : Nat) (t : Trivium) :
    Trivium.clocks n t = .ok (Trivium.nextState^[n] t) := by
  induction n generalizing t with
  | zero => rfl
  | succ n ih =>
    simp only [Trivium.clocks, NextBit_eq, bind, Except.bind, ih, Function.iterate_succ_apply]

theorem clockOut_eq (t : Trivium) (n : Nat) :
    t.clockOut n = .ok (Trivium.nextState^[n - 1] t).outBit := by
  simp only [Trivium.clockOut, clocks_eq, NextBit_eq, bind, Except.bind, pure, Except.pure]

theorem foldlM_nextState (l : List Nat) (t : Trivium) :
    l.foldlM (fun (t : Trivium) (_i : Nat) => (Except.ok t.nextState : Except Panic Trivium)) t =
      Except.ok (Trivium.nextState^[l.length] t) := by
  induction l generalizing t with
  | nil => rfl
  | cons a l ih =>
    simp only [List.foldlM_cons, bind, Except.bind, ih, List.length_cons,
      Function.iterate_succ_apply]

theorem warmUp_list (l : List Nat) (t : Trivium) :
    l.foldlM (fun (t : Trivium) (_i : Nat) => do
      let (_, t) ← t.NextBit
      return t) t = Except.ok (Trivium.nextState^[l.length] t) := by
  have hf : (fun (t : Trivium) (_i : Nat) => (do
      let (_, t) ← t.NextBit
      return t : Except Panic Trivium)) = fun t _i => Except.ok t.nextState := by
    funext t i
    simp only [NextBit_eq, bind, Except.bind, pure, Except.pure]
  rw [hf, foldlM_nextState]

theorem warmUp_eq (n : Nat) (t : Trivium) :
    InitTrivium.warmUp n t = .ok (Trivium.nextState^[n] t) := by
  unfold InitTrivium.warmUp
  rw [warmUp_list, List.length_range]

/-- C6: the register `InitTrivium` returns is the loaded register advanced by
exactly `1152` `NextBit` steps, and for `n ≥ 1` the `n`-th output of the
returned generator is the output of clock `1152 + n` of the loaded register;
`InitTrivium` returns the register alone, none of the warm-up outputs. -/
theorem InitTrivium_warmUp (key iv : Bytes10) (n : Nat) (hn : 1 ≤ n) :
    ∃ G z, InitTrivium key iv = .ok G ∧
      Trivium.clocks 1152 (InitTrivium.load key iv) = .ok G ∧
      G.clockOut n = .ok z ∧ (InitTrivium.load key iv).clockOut (1152 + n) = .ok z := by
  refine ⟨Trivium.nextState^[1152] (InitTrivium.load key iv),
    (Trivium.nextState^[n - 1] (Trivium.nextState^[1152] (InitTrivium.load key iv))).outBit,
    ?_, clocks_eq _ _, clockOut_eq _ _, ?_⟩
  · exact warmUp_eq _ _
  · rw [clockOut_eq, ← Function.iterate_add_apply]
    have : 1152 + n - 1 = n - 1 + 1152 := by omega
    rw [this]

/-- The warm-up of `InitTrivium_warmUp` on `sampleKey`, `sampleIV` and the
first output. -/
theorem InitTrivium_warmUp_witness :
    1 ≤ 1 ∧ ∃ G z, InitTrivium sampleKey sampleIV = .ok G ∧
      Trivium.clocks 1152 (InitTrivium.load sampleKey sampleIV) = .ok G ∧
      G.clockOut 1 = .ok z ∧ (InitTrivium.load sampleKey sampleIV).clockOut (1152 + 1) = .ok z :=
  ⟨by decide, InitTrivium_warmUp sampleKey sampleIV 1 (by decide)⟩

/-! ## Byte production -/

theorem u8_testBit (x b : Nat) : (u8 x).testBit b = (decide (b < 8) && x.testBit b) := by
  simp only [u8, Nat.testBit_mod_two_pow]

theorem shl8_testBit (x s b : Nat) :
    (shl8 x s).testBit b = (decide (b < 8) && (decide (b ≥ s) && x.testBit (b - s))) := by
  simp only [shl8, u8, Nat.testBit_mod_two_pow, Nat.testBit_shiftLeft]

theorem foldlM_ok {α β : Type} (g : β → α → β) (l : List α) (b : β) :
    l.foldlM (fun acc i => (Except.ok (g acc i) : Except Panic β)) b = Except.ok (l.foldl g b) := by
  induction l generalizing b with
  | nil => rfl
  | cons a l ih => simp only [List.foldlM_cons, bind, Except.bind, ih, List.foldl_cons]

theorem NextByte_fold (t : Trivium) :
    t.NextByte = .ok (u8 ((List.range 8).foldl byteStep (0, t)).1,
      ((List.range 8).foldl byteStep (0, t)).2) := by
  have hf : (fun (acc : Nat × Trivium) (i : Nat) => (do
      let (nextBit, t) ← acc.2.NextBit
      return (acc.1 ||| shl8 (u8 nextBit) i, t) : Except Panic (Nat × Trivium))) =
      fun acc i => Except.ok (byteStep acc i) := by
    funext acc i
    simp only [NextBit_eq, bind, Except.bind, pure, Except.pure, byteStep]
  unfold Trivium.NextByte
  rw [hf]
  simp only [foldlM_ok byteStep, bind, Except.bind, pure, Except.pure]

theorem fold_byteStep_state (n : Nat) (a : Nat) (t : Trivium) :
    ((List.range n).foldl byteStep (a, t)).2 = Trivium.nextState^[n] t := by
  induction n with
  | zero => rfl
  | succ n ih =>
    rw [List.range_succ, List.foldl_append, List.foldl_cons, List.foldl_nil,
      Function.iterate_succ_apply', ← ih]
    rfl

theorem outBit_le (t : Trivium) : t.outBit ≤ 1 := by
  rw [outBit_eq]; exact Bool.toNat_le _

theorem fold_byteStep_testBit (n : Nat) (t : Trivium) (j : Nat) :
    ((List.range n).foldl byteStep (0, t)).1.testBit j =
      (decide (j < n) && decide (j < 8) && (Trivium.nextState^[j] t).outBit.testBit 0) := by
  induction n with
  | zero => simp
  | succ n ih =>
    rw [List.range_succ, List.foldl_append, List.foldl_cons, List.foldl_nil]
    show (((List.range n).foldl byteStep (0, t)).1 |||
      shl8 (u8 ((List.range n).foldl byteStep (0, t)).2.outBit) n).testBit j = _
    rw [Nat.testBit_or, ih, shl8_testBit, u8_testBit, fold_byteStep_state]
    rcases Nat.lt_trichotomy j n with h | h | h
    · have h1 : ¬ j ≥ n := by omega
      have h2 : j < n + 1 := by omega
      simp [h, h1, h2]
    · subst h
      by_cases h8 : j < 8 <;> simp [h8]
    · have h1 : ¬ j < n := by omega
      have h2 : ¬ j < n + 1 := by omega
      have h3 : (Trivium.nextState^[n] t).outBit.testBit (j - n) = false := by
        apply Nat.testBit_lt_two_pow
        have := outBit_le (Trivium.nextState^[n] t)
        have hp : 0 < j - n := by omega
        calc (Trivium.nextState^[n] t).outBit < 2 ^ 1 := by omega
          _ ≤ 2 ^ (j - n) := Nat.pow_le_pow_right (by decide) hp
      simp [h1, h2, h3]

/-- C7: `NextByte` returns a byte `b` whose bit `n` (`n = 0..7`, bit `0` the
least significant) is the output of the `(n+1)`-th of eight successive
`NextBit` calls, and it leaves the register those eight calls leave. -/
theorem NextByte_eight_NextBit (S : Trivium) (n : Nat) (hn : n < 8) :
    ∃ b S', S.NextByte = .ok (b, S') ∧ Trivium.clocks 8 S = .ok S' ∧ b < 2 ^ 8 ∧
      S.clockOut (n + 1) = .ok (b.testBit n).toNat := by
  refine ⟨_, _, NextByte_fold S, ?_, Nat.mod_lt _ (by decide), ?_⟩
  · rw [clocks_eq, fold_byteStep_state]
  · rw [clockOut_eq, u8_testBit, fold_byteStep_testBit, Nat.add_sub_cancel, outBit_eq,
      toNat_testBit_zero]
    simp [hn]

/-- The byte packing of `NextByte_eight_NextBit` on `sampleState`, bit `5`. -/
theorem NextByte_eight_NextBit_witness :
    5 < 8 ∧ ∃ b S', sampleState.NextByte = .ok (b, S') ∧ Trivium.clocks 8 sampleState = .ok S' ∧
      b < 2 ^ 8 ∧ sampleState.clockOut (5 + 1) = .ok (b.testBit 5).toNat :=
  ⟨by decide, NextByte_eight_NextBit sampleState 5 (by decide)⟩

/-! ## The reference keystream -/

set_option maxRecDepth 1000000 in
/-- Evaluation of the embedded code on the all-zero key and IV. -/
theorem keystream_zero_eval :
    keystream zeroBytes zeroBytes 8 = .ok [0xFB, 0xE0, 0xBF, 0x26, 0x58, 0x59, 0x05, 0x1B] := by
  decide!

/-- C8: for the all-zero key and the all-zero IV the first eight `NextByte`
outputs are `FB E0 BF 26 58 59 05 1B`. -/
theorem keystream_zero :
    keystream zeroBytes zeroBytes 8 = .ok [0xFB, 0xE0, 0xBF, 0x26, 0x58, 0x59, 0x05, 0x1B] :=
  keystream_zero_eval

/-! ## The 32 spare bits of the fifth word -/

/-- C9, as stated, fails: in the register loaded from the all-zero key and IV the
32 low bits of `state[4]` are zero, and after one `NextBit` they are `2 ^ 31`. -/
theorem spare_bits_not_preserved :
    (InitTrivium.load zeroBytes zeroBytes).WF ∧
    (InitTrivium.load zeroBytes zeroBytes).state4 % 2 ^ 32 = 0 ∧
    (InitTrivium.load zeroBytes zeroBytes).NextBit = .ok (1, ⟨0, 0, 0, 0, 15032385536⟩) ∧
    15032385536 % 2 ^ 32 = 2 ^ 31 := by
  decide

set_option maxRecDepth 1000000 in
/-- The generator `InitTrivium` returns for the all-zero key and IV has non-zero
spare bits as well. -/
theorem spare_bits_after_warmUp :
    (InitTrivium zeroBytes zeroBytes).map (fun G => G.state4 % 2 ^ 32) = .ok 3516939868 := by
  decide!

theorem shiftIn_mod (hi lo : Nat) :
    ((hi >>> 1) ||| u64 (lo <<< 63)) % 2 ^ 32 = hi % 2 ^ 33 / 2 := by
  apply Nat.eq_of_testBit_eq
  intro j
  have e : hi % 2 ^ 33 / 2 = (hi % 2 ^ 33) >>> 1 := by
    rw [Nat.shiftRight_eq_div_pow, pow_one]
  rw [e]
  simp only [u64, Nat.testBit_mod_two_pow, Nat.testBit_or, Nat.testBit_shiftRight,
    Nat.testBit_shiftLeft]
  by_cases h : j < 32
  · have h1 : ¬ j ≥ 63 := by omega
    have h2 : 1 + j < 33 := by omega
    simp [h, h1, h2]
  · have h2 : ¬ 1 + j < 33 := by omega
    simp [h, h2]

/-- C9, amended: the 32 low bits of `state[4]` are zero in the register
`InitTrivium` loads; `NextBit` shifts them right by one together with the rest
of the word, so that afterwards they are the former bits `32..1` of `state[4]`:
bit 31 receives the former logical cell 288. -/
theorem spare_bits_shift (key iv : Bytes10) (S : Trivium) :
    (InitTrivium.load key iv).state4 % 2 ^ 32 = 0 ∧
    ∃ z S', S.NextBit = .ok (z, S') ∧ S'.state4 % 2 ^ 32 = S.state4 % 2 ^ 33 / 2 ∧
      S'.state4.testBit 31 = S.cell 288 := by
  have h0 : (InitTrivium.load key iv).state4 % 2 ^ 32 = 0 := by
    show shl64 7 32 % 2 ^ 32 = 0
    decide
  refine ⟨h0, S.outBit, S.nextState, NextBit_eq S, shiftIn_mod _ _, ?_⟩
  show ((S.state4 >>> 1) ||| u64 (S.state3 <<< 63)).testBit 31 = S.state4.testBit 32
  simp only [u64, Nat.testBit_or, Nat.testBit_shiftRight, Nat.testBit_shiftLeft,
    Nat.testBit_mod_two_pow, Trivium.cell, Trivium.word]
  simp

/-! ## The accessor `State` -/

/-- C10: `State` shifts the addressed word but does not mask the result to one
bit, against its own comments (`State returns the state at index i`,
`i'th bit`): on `sampleState`, a register of `uint64` words, logical cell `2`
is `1` and `State(2)` returns `3`. -/
theorem State_not_one_bit :
    sampleState.WF ∧ sampleState.State 2 = .ok 3 ∧ sampleState.cell 2 = true := by
  decide

/-- On every register `InitTrivium` loads, whatever the key and the IV,
`State(288)` returns `7`: the logical cells `286`, `287`, `288` together. -/
theorem State_loaded_last (key iv : Bytes10) : (InitTrivium.load key iv).State 288 = .ok 7 := by
  rw [State_eq _ (by decide) (by decide)]
  show Except.ok (shl64 7 32 >>> 32) = Except.ok 7
  decide

/-- What `State` does return for an index `i` in `1..288`: the word
`⌊(i-1)/64⌋` shifted right by `63 - ((i-1) mod 64)` and not masked, a value
below `2 ^ ((i-1) mod 64 + 1)` whose least-significant bit is logical cell `i`. -/
theorem State_value (S : Trivium) (hS : S.WF) (i : Nat) (h1 : 1 ≤ i) (h2 : i ≤ 288) :
    ∃ v, S.State i = .ok v ∧ v = S.word ((i - 1) / 64) >>> (63 - (i - 1) % 64) ∧
      v % 2 = (S.cell i).toNat ∧ v < 2 ^ ((i - 1) % 64 + 1) := by
  refine ⟨_, State_eq S h1 h2, rfl, ?_, ?_⟩
  · rw [cell_eq_tap, Nat.toNat_testBit, pow_zero, Nat.div_one]
  · have hw : S.word ((i - 1) / 64) < 2 ^ 64 := by
      obtain ⟨h0, h1', h2', h3, h4⟩ := hS
      have hk : (i - 1) / 64 ≤ 4 := by omega
      interval_cases (i - 1) / 64 <;> assumption
    rw [Nat.shiftRight_eq_div_pow, Nat.div_lt_iff_lt_mul (by positivity), ← pow_add]
    have e : (i - 1) % 64 + 1 + (63 - (i - 1) % 64) = 64 := by omega
    rw [e]
    exact hw

/-- The value of `State_value` on `sampleState`, index `2`. -/
theorem State_value_witness :
    sampleState.WF ∧ 1 ≤ 2 ∧ 2 ≤ 288 ∧
    ∃ v, sampleState.State 2 = .ok v ∧
      v = sampleState.word ((2 - 1) / 64) >>> (63 - (2 - 1) % 64) ∧
      v % 2 = (sampleState.cell 2).toNat ∧ v < 2 ^ ((2 - 1) % 64 + 1) :=
  ⟨by decide, by decide, by decide, State_value sampleState (by decide) 2 (by decide) (by decide)⟩

/-! ## Bit addressing -/

theorem State_unfold (t : Trivium) (i : Nat) :
    t.State i = (do
      let idx ← t.ArrayIdxContainsState i
      let w ← t.get idx
      pure (0 ||| (w >>> stateShift i))) := rfl

theorem stateShift_eq {i : Nat} (h1 : 1 ≤ i) (h2 : i ≤ 288) : stateShift i = 63 - (i - 1) % 64 := by
  have hs : sub64 i 1 = i - 1 := sub64_of_le h1 (by omega)
  have hlt : i - 1 < 2 ^ 64 := by omega
  have hm : (i - 1) % 64 ≤ 63 := by omega
  unfold stateShift
  rw [hs, mask_eq]
  show (sub64 63 ((i - 1) % 2 ^ 64 &&& 63)) % 2 ^ 64 = _
  rw [Nat.mod_eq_of_lt hlt, and_mask, sub64_of_le hm (by norm_num)]
  exact Nat.mod_eq_of_lt (by omega)

theorem ArrayIdx_eq (t : Trivium) {i : Nat} (h1 : 1 ≤ i) (h2 : i ≤ 288) :
    t.ArrayIdxContainsState i = .ok ((i - 1) / 64) := by
  have hs : sub64 i 1 = i - 1 := sub64_of_le h1 (by omega)
  have hno : ¬ (i < 0 ∨ i > 288) := by omega
  have hno5 : ¬ ((i - 1) / 2 ^ 6 > 5) := by omega
  simp only [Trivium.ArrayIdxContainsState, hs, Nat.shiftRight_eq_div_pow, if_neg hno,
    if_neg hno5]

theorem ArrayIdx_zero (t : Trivium) :
    t.ArrayIdxContainsState 0 = .error (.indexTooLarge 0 (2 ^ 58 - 1)) := by
  unfold Trivium.ArrayIdxContainsState
  decide

theorem ArrayIdx_gt (t : Trivium) {i : Nat} (h : i > 288) :
    t.ArrayIdxContainsState i = .error .invalidAccess := by
  have hyes : i < 0 ∨ i > 288 := Or.inr h
  simp only [Trivium.ArrayIdxContainsState, if_pos hyes]

theorem State_of_ArrayIdx_error (t : Trivium) {i : Nat} {e : Panic}
    (h : t.ArrayIdxContainsState i = .error e) : t.State i = .error e := by
  rw [State_unfold, h]
  rfl

/-- C11: for an index `i` in `1..288`, `ArrayIdxContainsState(i)` returns
`⌊(i-1)/64⌋ ≤ 4` without panicking and `State(i)` shifts right by
`63 - ((i-1) mod 64)`, so that the lowest bit of its result is bit
`63 - ((i-1) mod 64)` of word `⌊(i-1)/64⌋`; index `1` is word `0`, bit `63` and
index `288` is word `4`, bit `32`. -/
theorem bit_addressing (S : Trivium) (i : Nat) (h1 : 1 ≤ i) (h2 : i ≤ 288) :
    S.ArrayIdxContainsState i = .ok ((i - 1) / 64) ∧ (i - 1) / 64 ≤ 4 ∧
    stateShift i = 63 - (i - 1) % 64 ∧
    (∃ v, S.State i = .ok v ∧ v = S.word ((i - 1) / 64) >>> stateShift i ∧
      v.testBit 0 = (S.word ((i - 1) / 64)).testBit (63 - (i - 1) % 64)) ∧
    S.ArrayIdxContainsState 1 = .ok 0 ∧ stateShift 1 = 63 ∧
    S.ArrayIdxContainsState 288 = .ok 4 ∧ stateShift 288 = 32 := by
  refine ⟨ArrayIdx_eq S h1 h2, by omega, stateShift_eq h1 h2, ?_,
    ArrayIdx_eq S (i := 1) (by decide) (by decide), by decide,
    ArrayIdx_eq S (i := 288) (by decide) (by decide), by decide⟩
  refine ⟨_, State_eq S h1 h2, ?_, ?_⟩
  · rw [stateShift_eq h1 h2]
  · rw [Nat.testBit_shiftRight, Nat.add_zero]

/-- The addressing of `bit_addressing` on `sampleState`, index `288`, the last
cell of the register. -/
theorem bit_addressing_witness :
    1 ≤ 288 ∧ 288 ≤ 288 ∧
    sampleState.ArrayIdxContainsState 288 = .ok ((288 - 1) / 64) ∧ (288 - 1) / 64 ≤ 4 ∧
    stateShift 288 = 63 - (288 - 1) % 64 ∧
    (∃ v, sampleState.State 288 = .ok v ∧
      v = sampleState.word ((288 - 1) / 64) >>> stateShift 288 ∧
      v.testBit 0 = (sampleState.word ((288 - 1) / 64)).testBit (63 - (288 - 1) % 64)) ∧
    sampleState.ArrayIdxContainsState 1 = .ok 0 ∧ stateShift 1 = 63 ∧
    sampleState.ArrayIdxContainsState 288 = .ok 4 ∧ stateShift 288 = 32 :=
  ⟨by decide, by decide, bit_addressing sampleState 288 (by decide) (by decide)⟩

/-- C12: for every index `i`, `ArrayIdxContainsState(i)` panics exactly when
`i = 0` or `i > 288`, and so does `State(i)`; a value is returned exactly for
`1 ≤ i ≤ 288`.  Index `0` is stopped by the second test (its word index is
`2 ^ 58 - 1`), index `289` by the first. -/
theorem index_panics (S : Trivium) (i : Nat) :
    ((∃ e, S.ArrayIdxContainsState i = .error e) ↔ (i = 0 ∨ i > 288)) ∧
    ((∃ e, S.State i = .error e) ↔ (i = 0 ∨ i > 288)) ∧
    ((∃ k, S.ArrayIdxContainsState i = .ok k) ↔ (1 ≤ i ∧ i ≤ 288)) ∧
    ((∃ v, S.State i = .ok v) ↔ (1 ≤ i ∧ i ≤ 288)) ∧
    S.ArrayIdxContainsState 0 = .error (.indexTooLarge 0 (2 ^ 58 - 1)) ∧
    S.ArrayIdxContainsState 289 = .error .invalidAccess := by
  have hbad : (i = 0 ∨ i > 288) → ∃ e, S.ArrayIdxContainsState i = .error e := by
    rintro (h | h)
    · subst h; exact ⟨_, ArrayIdx_zero S⟩
    · exact ⟨_, ArrayIdx_gt S h⟩
  have hgood : (1 ≤ i ∧ i ≤ 288) → S.ArrayIdxContainsState i = .ok ((i - 1) / 64) :=
    fun h => ArrayIdx_eq S h.1 h.2
  have hcase : (i = 0 ∨ i > 288) ∨ (1 ≤ i ∧ i ≤ 288) := by omega
  refine ⟨⟨?_, hbad⟩, ⟨?_, ?_⟩, ⟨?_, ?_⟩, ⟨?_, ?_⟩, ArrayIdx_zero S,
    ArrayIdx_gt S (by decide)⟩
  · rintro ⟨e, he⟩
    rcases hcase with h | h
    · exact h
    · rw [hgood h] at he; cases he
  · rintro ⟨e, he⟩
    rcases hcase with h | h
    · exact h
    · rw [State_eq S h.1 h.2] at he; cases he
  · intro h
    obtain ⟨e, he⟩ := hbad h
    exact ⟨e, State_of_ArrayIdx_error S he⟩
  · rintro ⟨k, hk⟩
    rcases hcase with h | h
    · obtain ⟨e, he⟩ := hbad h
      rw [he] at hk; cases hk
    · exact h
  · intro h; exact ⟨_, hgood h⟩
  · rintro ⟨v, hv⟩
    rcases hcase with h | h
    · obtain ⟨e, he⟩ := hbad h
      rw [State_of_ArrayIdx_error S he] at hv; cases hv
    · exact h
  · intro h; exact ⟨_, State_eq S h.1 h.2⟩

/-! ## Avalanche -/

set_option maxRecDepth 1000000 in
theorem keystream_flipped_eval :
    keystream flippedKey zeroBytes 8 = .ok [0x5D, 0x49, 0x2E, 0x77, 0xF8, 0xFE, 0x62, 0xD7] := by
  decide!

/-- C13: with the all-zero IV, the generator built from the all-zero key and
the generator built from the key with only `key[0] = 0x80` yield different
sequences of first eight `NextByte` outputs. -/
theorem keystream_key_bit_flip :
    ∃ a b, keystream zeroBytes zeroBytes 8 = .ok a ∧ keystream flippedKey zeroBytes 8 = .ok b ∧
      a ≠ b :=
  ⟨_, _, keystream_zero_eval, keystream_flipped_eval, by decide⟩

/-! ## Absence of panics -/

theorem NextByte_ok (t : Trivium) : ∃ r, t.NextByte = .ok r := ⟨_, NextByte_fold t⟩

/-- C14: on every register `NextBit` returns: each of the fifteen indices it
passes to `State` lies in `1..288`, resolves to a word index of at most `4` and
is read without a panic, and the two insert positions are words `1` and `2`,
which `get` and `set` accept.  Hence `NextByte` on every register and
`InitTrivium` on every key and IV return as well. -/
theorem NextBit_no_panic (S : Trivium) (key iv : Bytes10) :
    (∃ r, S.NextBit = .ok r) ∧
    (∀ i ∈ tapIndices, 1 ≤ i ∧ i ≤ 288 ∧
      (∃ k, S.ArrayIdxContainsState i = .ok k ∧ k ≤ 4) ∧ ∃ v, S.State i = .ok v) ∧
    (93 >>> 6 = 1 ∧ 177 >>> 6 = 2 ∧
      ∀ T : Trivium, ∀ k, (k = 1 ∨ k = 2) → (∃ w, T.get k = .ok w) ∧ ∀ v, ∃ T', T.set k v = .ok T') ∧
    (∃ r, S.NextByte = .ok r) ∧
    (∃ G, InitTrivium key iv = .ok G) := by
  refine ⟨⟨_, NextBit_eq S⟩, ?_, ⟨by decide, by decide, ?_⟩, NextByte_ok S, ⟨_, warmUp_eq _ _⟩⟩
  · intro i hi
    have hr : 1 ≤ i ∧ i ≤ 288 := by
      simp only [tapIndices, List.mem_cons, List.mem_singleton, List.not_mem_nil, or_false] at hi
      omega
    exact ⟨hr.1, hr.2, ⟨_, ArrayIdx_eq S hr.1 hr.2, by omega⟩, ⟨_, State_eq S hr.1 hr.2⟩⟩
  · intro T k hk
    rcases hk with rfl | rfl
    · exact ⟨⟨_, rfl⟩, fun v => ⟨_, rfl⟩⟩
    · exact ⟨⟨_, rfl⟩, fun v => ⟨_, rfl⟩⟩

/-! ## Independence of the spare bits -/

theorem andNot64_le (x m : Nat) : andNot64 x m ≤ x := Nat.and_le_left

theorem nextState_WF (t : Trivium) (h : t.WF) : t.nextState.WF := by
  obtain ⟨h0, h1, h2, h3, h4⟩ := h
  have hu : ∀ x, u64 x < 2 ^ 64 := fun x => Nat.mod_lt _ (by positivity)
  refine ⟨shiftIn_lt _ _ h0, ?_, ?_, shiftIn_lt _ _ h3, shiftIn_lt _ _ h4⟩
  · exact Nat.or_lt_two_pow (lt_of_le_of_lt (andNot64_le _ _) (shiftIn_lt _ _ h1)) (hu _)
  · exact Nat.or_lt_two_pow (lt_of_le_of_lt (andNot64_le _ _) (shiftIn_lt _ _ h2)) (hu _)

theorem iterate_WF (n : Nat) (t : Trivium) (h : t.WF) : (Trivium.nextState^[n] t).WF := by
  induction n with
  | zero => exact h
  | succ n ih =>
    rw [Function.iterate_succ_apply']
    exact nextState_WF _ ih

/-- Registers with equal words `0..3` and equal upper halves of word `4` agree
on the logical cells. -/
theorem logicalEq_of_words {S T : Trivium} (h0 : S.state0 = T.state0) (h1 : S.state1 = T.state1)
    (h2 : S.state2 = T.state2) (h3 : S.state3 = T.state3)
    (h4 : S.state4 >>> 32 = T.state4 >>> 32) : S.logicalEq T := by
  intro i hi1 hi2
  have hk : (i - 1) / 64 = 0 ∨ (i - 1) / 64 = 1 ∨ (i - 1) / 64 = 2 ∨ (i - 1) / 64 = 3 ∨
      (i - 1) / 64 = 4 := by omega
  rcases hk with hk | hk | hk | hk | hk
  · simp only [Trivium.cell, hk, Trivium.word, h0]
  · simp only [Trivium.cell, hk, Trivium.word, h1]
  · simp only [Trivium.cell, hk, Trivium.word, h2]
  · simp only [Trivium.cell, hk, Trivium.word, h3]
  · have e : 63 - (i - 1) % 64 = 32 + (31 - (i - 1) % 64) := by omega
    simp only [Trivium.cell, hk, Trivium.word, e, ← Nat.testBit_shiftRight, h4]

theorem logicalEq_outBit {S T : Trivium} (h : S.logicalEq T) :
    S.outBit = T.outBit ∧ S.fb1 = T.fb1 ∧ S.fb2 = T.fb2 ∧ S.fb3 = T.fb3 := by
  have c : ∀ i, 1 ≤ i → i ≤ 288 → S.cell i = T.cell i := h
  refine ⟨?_, ?_, ?_, ?_⟩
  · rw [outBit_eq, outBit_eq, c 66 (by decide) (by decide), c 93 (by decide) (by decide),
      c 162 (by decide) (by decide), c 177 (by decide) (by decide),
      c 243 (by decide) (by decide), c 288 (by decide) (by decide)]
  · rw [fb1_eq, fb1_eq, c 66 (by decide) (by decide), c 93 (by decide) (by decide),
      c 91 (by decide) (by decide), c 92 (by decide) (by decide),
      c 171 (by decide) (by decide)]
  · rw [fb2_eq, fb2_eq, c 162 (by decide) (by decide), c 177 (by decide) (by decide),
      c 175 (by decide) (by decide), c 176 (by decide) (by decide),
      c 264 (by decide) (by decide)]
  · rw [fb3_eq, fb3_eq, c 243 (by decide) (by decide), c 288 (by decide) (by decide),
      c 286 (by decide) (by decide), c 287 (by decide) (by decide),
      c 69 (by decide) (by decide)]

theorem logicalEq_nextState {S T : Trivium} (hS : S.WF) (hT : T.WF) (h : S.logicalEq T) :
    S.nextState.logicalEq T.nextState := by
  obtain ⟨-, e1, e2, e3⟩ := logicalEq_outBit h
  obtain ⟨s1, s94, s178⟩ := nextState_cell_insert S hS
  obtain ⟨t1, t94, t178⟩ := nextState_cell_insert T hT
  intro i hi1 hi2
  by_cases c1 : i = 1
  · subst c1; rw [s1, t1, e3]
  by_cases c94 : i = 94
  · subst c94; rw [s94, t94, e1]
  by_cases c178 : i = 178
  · subst c178; rw [s178, t178, e2]
  rw [nextState_cell_shift S hS (by omega) hi2 c94 c178,
    nextState_cell_shift T hT (by omega) hi2 c94 c178]
  exact h (i - 1) (by omega) (by omega)

theorem logicalEq_iterate {S T : Trivium} (hS : S.WF) (hT : T.WF) (h : S.logicalEq T) (n : Nat) :
    (Trivium.nextState^[n] S).logicalEq (Trivium.nextState^[n] T) := by
  induction n with
  | zero => exact h
  | succ n ih =>
    rw [Function.iterate_succ_apply', Function.iterate_succ_apply']
    exact logicalEq_nextState (iterate_WF n S hS) (iterate_WF n T hT) ih

theorem logicalEq_byte {S T : Trivium} (hS : S.WF) (hT : T.WF) (h : S.logicalEq T) :
    u8 ((List.range 8).foldl byteStep (0, S)).1 = u8 ((List.range 8).foldl byteStep (0, T)).1 := by
  apply Nat.eq_of_testBit_eq
  intro j
  rw [u8_testBit, u8_testBit, fold_byteStep_testBit, fold_byteStep_testBit,
    (logicalEq_outBit (logicalEq_iterate hS hT h j)).1]

/-- C15: two registers of `uint64` words that agree on the logical cells
`1..288` make `NextBit` return the same bit and leave registers that again
agree on the logical cells; hence every `NextBit` output of the two clock
sequences and the byte `NextByte` returns are the same. -/
theorem spare_bits_independence (S T : Trivium) (hS : S.WF) (hT : T.WF) (h : S.logicalEq T) :
    (∃ z S' T', S.NextBit = .ok (z, S') ∧ T.NextBit = .ok (z, T') ∧ S'.logicalEq T') ∧
    (∀ n, ∃ z, S.clockOut n = .ok z ∧ T.clockOut n = .ok z) ∧
    (∃ b S' T', S.NextByte = .ok (b, S') ∧ T.NextByte = .ok (b, T') ∧ S'.logicalEq T') := by
  refine ⟨⟨S.outBit, S.nextState, T.nextState, NextBit_eq S, ?_, logicalEq_nextState hS hT h⟩,
    ?_, ?_⟩
  · rw [NextBit_eq, (logicalEq_outBit h).1]
  · intro n
    refine ⟨_, clockOut_eq S n, ?_⟩
    rw [clockOut_eq, (logicalEq_outBit (logicalEq_iterate hS hT h (n - 1))).1]
  · refine ⟨_, _, ((List.range 8).foldl byteStep (0, T)).2, NextByte_fold S, ?_, ?_⟩
    · rw [NextByte_fold, logicalEq_byte hS hT h]
    · rw [fold_byteStep_state, fold_byteStep_state]
      exact logicalEq_iterate hS hT h 8

/-- The independence of `spare_bits_independence` on `sampleState` and
`sampleState2`, which differ in the spare bits only. -/
theorem spare_bits_independence_witness :
    sampleState.WF ∧ sampleState2.WF ∧ sampleState.logicalEq sampleState2 ∧
    sampleState.state4 ≠ sampleState2.state4 ∧
    (∃ z S' T', sampleState.NextBit = .ok (z, S') ∧ sampleState2.NextBit = .ok (z, T') ∧
      S'.logicalEq T') ∧
    (∀ n, ∃ z, sampleState.clockOut n = .ok z ∧ sampleState2.clockOut n = .ok z) ∧
    (∃ b S' T', sampleState.NextByte = .ok (b, S') ∧ sampleState2.NextByte = .ok (b, T') ∧
      S'.logicalEq T') :=
  ⟨by decide, by decide, logicalEq_of_words rfl rfl rfl rfl (by decide), by decide,
    spare_bits_independence sampleState sampleState2 (by decide) (by decide)
      (logicalEq_of_words rfl rfl rfl rfl (by decide))⟩

/-! ## Injectivity -/

theorem xor_tap_cancel (a p d x y : Bool)
    (h : xor (xor (xor a x) p) d = xor (xor (xor a y) p) d) : x = y := by
  cases a <;> cases p <;> cases d <;> cases x <;> cases y <;> simp_all

/-- One clock is injective on the logical cells. -/
theorem logicalEq_of_nextState {S T : Trivium} (hS : S.WF) (hT : T.WF)
    (h : S.nextState.logicalEq T.nextState) : S.logicalEq T := by
  obtain ⟨s1, s94, s178⟩ := nextState_cell_insert S hS
  obtain ⟨t1, t94, t178⟩ := nextState_cell_insert T hT
  have hshift : ∀ j, 1 ≤ j → j ≤ 287 → j ≠ 93 → j ≠ 177 → S.cell j = T.cell j := by
    intro j h1 h2 h93 h177
    have hs := nextState_cell_shift S hS (i := j + 1) (by omega) (by omega) (by omega) (by omega)
    have ht := nextState_cell_shift T hT (i := j + 1) (by omega) (by omega) (by omega) (by omega)
    rw [Nat.add_sub_cancel] at hs ht
    rw [← hs, ← ht]
    exact h (j + 1) (by omega) (by omega)
  have c : ∀ j, 1 ≤ j → j ≤ 287 → j ≠ 93 → j ≠ 177 → S.cell j = T.cell j := hshift
  have e94 := h 94 (by decide) (by decide)
  have e178 := h 178 (by decide) (by decide)
  have e1 := h 1 (by decide) (by decide)
  rw [s94, t94, fb1_eq, fb1_eq, toNat_testBit_zero, toNat_testBit_zero,
    ← c 66 (by decide) (by decide) (by decide) (by decide),
    ← c 91 (by decide) (by decide) (by decide) (by decide),
    ← c 92 (by decide) (by decide) (by decide) (by decide),
    ← c 171 (by decide) (by decide) (by decide) (by decide)] at e94
  rw [s178, t178, fb2_eq, fb2_eq, toNat_testBit_zero, toNat_testBit_zero,
    ← c 162 (by decide) (by decide) (by decide) (by decide),
    ← c 175 (by decide) (by decide) (by decide) (by decide),
    ← c 176 (by decide) (by decide) (by decide) (by decide),
    ← c 264 (by decide) (by decide) (by decide) (by decide)] at e178
  rw [s1, t1, fb3_eq, fb3_eq, toNat_testBit_zero, toNat_testBit_zero,
    ← c 243 (by decide) (by decide) (by decide) (by decide),
    ← c 286 (by decide) (by decide) (by decide) (by decide),
    ← c 287 (by decide) (by decide) (by decide) (by decide),
    ← c 69 (by decide) (by decide) (by decide) (by decide)] at e1
  have h93 : S.cell 93 = T.cell 93 := xor_tap_cancel _ _ _ _ _ e94
  have h177 : S.cell 177 = T.cell 177 := xor_tap_cancel _ _ _ _ _ e178
  have h288 : S.cell 288 = T.cell 288 := xor_tap_cancel _ _ _ _ _ e1
  intro i hi1 hi2
  by_cases c93 : i = 93
  · subst c93; exact h93
  by_cases c177 : i = 177
  · subst c177; exact h177
  by_cases c288 : i = 288
  · subst c288; exact h288
  exact c i hi1 (by omega) c93 c177

/-- C16: the state transition of `NextBit` is injective on the logical
register: if the registers `NextBit` leaves from `S` and from `T` agree on the
logical cells `1..288`, so do `S` and `T`. -/
theorem NextBit_injective (S T : Trivium) (hS : S.WF) (hT : T.WF) :
    ∃ z z' S' T', S.NextBit = .ok (z, S') ∧ T.NextBit = .ok (z', T') ∧
      (S'.logicalEq T' → S.logicalEq T) :=
  ⟨_, _, _, _, NextBit_eq S, NextBit_eq T, logicalEq_of_nextState hS hT⟩

/-- The injectivity of `NextBit_injective` on `sampleState` and `sampleState2`. -/
theorem NextBit_injective_witness :
    sampleState.WF ∧ sampleState2.WF ∧
    ∃ z z' S' T', sampleState.NextBit = .ok (z, S') ∧ sampleState2.NextBit = .ok (z', T') ∧
      (S'.logicalEq T' → sampleState.logicalEq sampleState2) :=
  ⟨by decide, by decide, NextBit_injective sampleState sampleState2 (by decide) (by decide)⟩

theorem logicalEq_of_iterate (n : Nat) {S T : Trivium} (hS : S.WF) (hT : T.WF)
    (h : (Trivium.nextState^[n] S).logicalEq (Trivium.nextState^[n] T)) : S.logicalEq T := by
  induction n with
  | zero => exact h
  | succ n ih =>
    rw [Function.iterate_succ_apply', Function.iterate_succ_apply'] at h
    exact ih (logicalEq_of_nextState (iterate_WF n S hS) (iterate_WF n T hT) h)

theorem shl64_lt (x s : Nat) : shl64 x s < 2 ^ 64 := Nat.mod_lt _ (by positivity)

theorem load_WF (key iv : Bytes10) (hk : key.WF) (hiv : iv.WF) : (InitTrivium.load key iv).WF := by
  have hb : ∀ k, key k < 2 ^ 64 := fun k => lt_trans (hk k) (by decide)
  have hs : iv 4 >>> 5 < 2 ^ 64 := by
    rw [Nat.shiftRight_eq_div_pow]
    exact lt_of_le_of_lt (Nat.div_le_self _ _) (lt_trans (hiv 4) (by decide))
  have h0 : (0 : Nat) < 2 ^ 64 := by decide
  refine ⟨?_, ?_, ?_, h0, shl64_lt _ _⟩
  · exact Nat.or_lt_two_pow (Nat.or_lt_two_pow (Nat.or_lt_two_pow (Nat.or_lt_two_pow
      (Nat.or_lt_two_pow (Nat.or_lt_two_pow (Nat.or_lt_two_pow (Nat.or_lt_two_pow h0
      (shl64_lt _ _)) (shl64_lt _ _)) (shl64_lt _ _)) (shl64_lt _ _)) (shl64_lt _ _))
      (shl64_lt _ _)) (shl64_lt _ _)) (hb 7)
  · exact Nat.or_lt_two_pow (Nat.or_lt_two_pow (Nat.or_lt_two_pow (Nat.or_lt_two_pow
      (Nat.or_lt_two_pow (Nat.or_lt_two_pow (Nat.or_lt_two_pow h0
      (shl64_lt _ _)) (shl64_lt _ _)) (shl64_lt _ _)) (shl64_lt _ _)) (shl64_lt _ _))
      (shl64_lt _ _)) hs
  · exact Nat.or_lt_two_pow (Nat.or_lt_two_pow (Nat.or_lt_two_pow (Nat.or_lt_two_pow
      (Nat.or_lt_two_pow (Nat.or_lt_two_pow h0
      (shl64_lt _ _)) (shl64_lt _ _)) (shl64_lt _ _)) (shl64_lt _ _)) (shl64_lt _ _))
      (shl64_lt _ _)

theorem byte_eq_of_testBit {x y : Nat} (hx : x < 2 ^ 8) (hy : y < 2 ^ 8)
    (h : ∀ j, j < 8 → x.testBit (7 - j) = y.testBit (7 - j)) : x = y := by
  apply Nat.eq_of_testBit_eq
  intro b
  by_cases hb : b < 8
  · have := h (7 - b) (by omega)
    have e : 7 - (7 - b) = b := by omega
    rwa [e] at this
  · rw [byte_testBit_ge hx (by omega), byte_testBit_ge hy (by omega)]

/-- The loaded register determines the key and the IV. -/
theorem load_injective {key iv key' iv' : Bytes10} (hk : key.WF) (hiv : iv.WF) (hk' : key'.WF)
    (hiv' : iv'.WF) (h : (InitTrivium.load key iv).logicalEq (InitTrivium.load key' iv')) :
    key = key' ∧ iv = iv' := by
  constructor
  · funext k
    apply byte_eq_of_testBit (hk k) (hk' k)
    intro j hj
    rw [← load_cell_key key iv hk hiv k j hj, ← load_cell_key key' iv' hk' hiv' k j hj]
    exact h _ (by omega) (by have := k.isLt; omega)
  · funext k
    apply byte_eq_of_testBit (hiv k) (hiv' k)
    intro j hj
    rw [← load_cell_iv key iv hk hiv k j hj, ← load_cell_iv key' iv' hk' hiv' k j hj]
    exact h _ (by omega) (by have := k.isLt; omega)

/-- C17: `InitTrivium` is injective: for byte-valued inputs with `key ≠ key'` or
`iv ≠ iv'` both calls return and the two generators differ in at least one
logical cell in `1..288`. -/
theorem InitTrivium_injective (key iv key' iv' : Bytes10) (hk : key.WF) (hiv : iv.WF)
    (hk' : key'.WF) (hiv' : iv'.WF) (hne : key ≠ key' ∨ iv ≠ iv') :
    ∃ G G', InitTrivium key iv = .ok G ∧ InitTrivium key' iv' = .ok G' ∧
      ∃ i, 1 ≤ i ∧ i ≤ 288 ∧ G.cell i ≠ G'.cell i := by
  refine ⟨_, _, warmUp_eq _ _, warmUp_eq _ _, ?_⟩
  by_contra hcon
  have hall : (Trivium.nextState^[4 * 288] (InitTrivium.load key iv)).logicalEq
      (Trivium.nextState^[4 * 288] (InitTrivium.load key' iv')) := by
    intro i h1 h2
    by_contra hc
    exact hcon ⟨i, h1, h2, hc⟩
  have hl := logicalEq_of_iterate _ (load_WF key iv hk hiv) (load_WF key' iv' hk' hiv') hall
  obtain ⟨e1, e2⟩ := load_injective hk hiv hk' hiv' hl
  rcases hne with hne | hne
  · exact hne e1
  · exact hne e2

/-- The injectivity of `InitTrivium_injective` on the all-zero key and
`flippedKey`, both with the all-zero IV. -/
theorem InitTrivium_injective_witness :
    zeroBytes.WF ∧ flippedKey.WF ∧ (zeroBytes ≠ flippedKey ∨ zeroBytes ≠ zeroBytes) ∧
    ∃ G G', InitTrivium zeroBytes zeroBytes = .ok G ∧ InitTrivium flippedKey zeroBytes = .ok G' ∧
      ∃ i, 1 ≤ i ∧ i ≤ 288 ∧ G.cell i ≠ G'.cell i :=
  ⟨by intro k; fin_cases k <;> decide, by intro k; fin_cases k <;> decide,
    Or.inl (fun h => absurd (congrFun h 0) (by decide)),
    InitTrivium_injective zeroBytes zeroBytes flippedKey zeroBytes
      (by intro k; fin_cases k <;> decide) (by intro k; fin_cases k <;> decide)
      (by intro k; fin_cases k <;> decide) (by intro k; fin_cases k <;> decide)
      (Or.inl (fun h => absurd (congrFun h 0) (by decide)))⟩

end MMVUD
